import Mathlib

/-!
# Verification of the RAFT citation-reformatting pipeline

A shallow embedding of the document/citation reformatting logic of the
repository (`format_documents.py`, `reformat_conversation.py`,
`reformat_jsonl.py`).  Strings are modelled as lists of characters; the
regular-expression operations used by the source (non-greedy matching of
literal delimiter pairs, literal splitting, and substitution) are modelled
by an explicit leftmost-occurrence scanner.
-/

/-- Strings are modelled as lists of characters. -/
abbrev Str := List Char

/-- Characters treated as whitespace by Python's `str.strip`/`str.split`. -/
def pySpace (c : Char) : Bool :=
  c == ' ' || c == '\t' || c == '\n' || c == '\r' || c == '\x0b' || c == '\x0c'

/-- Python `str.strip()`: drop leading and trailing whitespace. -/
def pyStrip (l : Str) : Str :=
  ((l.dropWhile pySpace).reverse.dropWhile pySpace).reverse

/-- Helper for `pySplitWs`: accumulate the current word (reversed) while
scanning. -/
def splitWsAux (acc : Str) : Str → List Str
  | [] => if acc.isEmpty then [] else [acc.reverse]
  | c :: rest =>
    if pySpace c then
      if acc.isEmpty then splitWsAux [] rest
      else acc.reverse :: splitWsAux [] rest
    else splitWsAux (c :: acc) rest

/-- Python `str.split()` with no separator: split on whitespace runs,
dropping empty pieces. -/
def pySplitWs (l : Str) : List Str := splitWsAux [] l

/-- Python's `' '.join(text.split())` from the source's `normalize_text`. -/
def normalize_text (t : Str) : Str := List.intercalate [' '] (pySplitWs t)

/-- Python's `'\n'.join(lines)`. -/
def joinNL (lines : List Str) : Str := List.intercalate ['\n'] lines

/-- Decimal rendering of a natural number, as Python's `str(i)`. -/
def natStr (n : Nat) : Str := (Nat.repr n).data

/-- Find the leftmost occurrence of `pat` in `l`; return the text before the
occurrence and the text after it.  `none` when `pat` does not occur.  This is
the primitive shared by the models of `re.findall`, `re.split` and `re.sub`
on literal-delimiter patterns. -/
def splitOnceAfter (pat : Str) : Str → Option (Str × Str)
  | [] => if pat.isPrefixOf [] then some ([], []) else none
  | x :: rest =>
    if pat.isPrefixOf (x :: rest) then some ([], (x :: rest).drop pat.length)
    else (splitOnceAfter pat rest).map (fun ba => (x :: ba.1, ba.2))

/-- Python `pat in s` (substring test). -/
def containsSub (pat l : Str) : Bool := (splitOnceAfter pat l).isSome

/-- Fuel-driven worker for `findAllBetween`. -/
def findAllAux (o c : Str) : Nat → Str → List Str
  | 0, _ => []
  | fuel + 1, l =>
    match splitOnceAfter o l with
    | none => []
    | some (_, r1) =>
      match splitOnceAfter c r1 with
      | none => []
      | some (d, r2) => d :: findAllAux o c fuel r2

/-- Model of `re.findall(r'OPEN(.*?)CLOSE', msg, re.DOTALL)` for literal
delimiters `OPEN`/`CLOSE`: the captured groups of the non-overlapping,
non-greedy, leftmost matches. -/
def findAllBetween (o c : Str) (l : Str) : List Str :=
  findAllAux o c (l.length + 1) l

/-- Fuel-driven worker for `splitOnPat`. -/
def splitOnPatAux (pat : Str) : Nat → Str → List Str
  | 0, l => [l]
  | fuel + 1, l =>
    match splitOnceAfter pat l with
    | none => [l]
    | some (b, a) => b :: splitOnPatAux pat fuel a

/-- Model of `re.split(pat, msg)` for a literal pattern: split at every
non-overlapping leftmost occurrence. -/
def splitOnPat (pat : Str) (l : Str) : List Str :=
  splitOnPatAux pat (l.length + 1) l

/-- Fuel-driven worker for `pySub`. -/
def pySubAux (o c : Str) (f : Str → Str) : Nat → Str → Str
  | 0, l => l
  | fuel + 1, l =>
    match splitOnceAfter o l with
    | none => l
    | some (p, r1) =>
      match splitOnceAfter c r1 with
      | none => l
      | some (g, r2) => p ++ f g ++ pySubAux o c f fuel r2

/-- Model of `re.sub(r'OPEN(.*?)CLOSE', repl, msg, flags=re.DOTALL)` with a
replacement function applied to each captured group. -/
def pySub (o c : Str) (f : Str → Str) (l : Str) : Str :=
  pySubAux o c f (l.length + 1) l

/-! ## Tag vocabulary (fixed literals of the source) -/

/-- The literal `<DOCUMENT>` opening tag. -/
def openD : Str := "<DOCUMENT>".data

/-- The literal `</DOCUMENT>` closing tag. -/
def closeD : Str := "</DOCUMENT>".data

/-- The literal `##begin_quote##` marker. -/
def openQ : Str := "##begin_quote##".data

/-- The literal `##end_quote##` marker. -/
def closeQ : Str := "##end_quote##".data

/-- A single backtick, the quote delimiter used in the output format. -/
def btk : Str := "`".data

/-! ## Embedding of format_documents.py -/

/-- Model of `extract_documents` from `format_documents.py`: find every
`<DOCUMENT>...</DOCUMENT>` span and strip each captured content. -/
def extract_documents (message : Str) : List Str :=
  (findAllBetween openD closeD message).map pyStrip

/-- Model of `reformat_user_documents` from `format_documents.py`: rewrite a user
message containing `<DOCUMENT>` tags into the numbered `Sources:` format,
keeping the text after the last closing tag as the trailing question. -/
def reformat_user_documents (message : Str) : Str :=
  let documents := findAllBetween openD closeD message
  if documents.isEmpty then message
  else
    let parts := splitOnPat closeD message
    let question := if 1 < parts.length then pyStrip (parts.getLast?.getD []) else []
    let docLines := documents.enum.map
      (fun p => "  - [".data ++ natStr (p.1 + 1) ++ "] ".data ++ pyStrip p.2)
    let formatted_lines := "Sources:".data :: docLines
    let formatted_lines :=
      if question.isEmpty then formatted_lines else formatted_lines ++ [[], question]
    joinNL formatted_lines

/-- The citation-search loop of `replace_quote`: 1-based index of the first
document whose normalized text contains the normalized quote. -/
def findCitation (nq : Str) : List Str → Nat → Option Nat
  | [], _ => none
  | d :: ds, i =>
    if containsSub nq (normalize_text d) then some i else findCitation nq ds (i + 1)

/-- Model of `replace_quote` from `reformat_quotes_with_citations`: wrap the stripped
quote in backticks and append ` [i]` when a containing document is found. -/
def replace_quote (documents : List Str) (g : Str) : Str :=
  let quote_text := pyStrip g
  let normalized_quote := normalize_text quote_text
  match findCitation normalized_quote documents 1 with
  | some i => btk ++ quote_text ++ btk ++ " [".data ++ natStr i ++ "]".data
  | none => btk ++ quote_text ++ btk

/-- Model of `reformat_quotes_with_citations` from `format_documents.py`. -/
def reformat_quotes_with_citations (message : Str) (documents : List Str) : Str :=
  pySub openQ closeQ (replace_quote documents) message

/-! ## Embedding of reformat_conversation.py -/

/-- The `'unknown'` default role. -/
def unknownRole : Str := "unknown".data

/-- The `'user'` role literal. -/
def userRole : Str := "user".data

/-- The `'assistant'` role literal. -/
def assistantRole : Str := "assistant".data

/-- A conversation message: the `role` and `content` entries of the JSON
object (absent entries are `none`) together with any further key/value
entries the object may carry. -/
structure Msg where
  role : Option Str
  content : Option Str
  extra : List (Str × Str)
deriving DecidableEq, Repr

/-- A conversation: the `messages` entry of the JSON object, or `none` when
the object is empty or lacks a `messages` key. -/
structure Conv where
  messages : Option (List Msg)
deriving DecidableEq, Repr

/-- The message loop of `reformat_ai_conversation`, carrying the running
`documents_list` state. -/
def processMessages (documents_list : List Str) : List Msg → List Msg
  | [] => []
  | m :: ms =>
    let role := m.role.getD unknownRole
    let content := m.content.getD []
    if role == userRole && containsSub openD content then
      { role := some role, content := some (reformat_user_documents content),
        extra := [] } :: processMessages (extract_documents content) ms
    else if role == assistantRole && containsSub openQ content then
      { role := some role,
        content := some (reformat_quotes_with_citations content documents_list),
        extra := [] } :: processMessages documents_list ms
    else
      { role := some role, content := some content, extra := [] }
        :: processMessages documents_list ms

/-- Model of `reformat_ai_conversation` from `reformat_conversation.py`. -/
def reformat_ai_conversation (conversation : Conv) : Conv :=
  match conversation.messages with
  | none => { messages := some [] }
  | some ms => { messages := some (processMessages [] ms) }

/-! ## Embedding of reformat_jsonl.py

`json.loads` and `json.dumps` are external library calls; they are modelled
by an abstract parser `parse : Str → Option Conv` (where `none` stands for a
raised `JSONDecodeError`/`Exception`) and an abstract serializer
`dump : Conv → Str`.  The input file of `reformat_jsonl_file` is modelled as
its list of lines. -/

/-- Result of the file variant: the lines written to the output file and the
two counters it reports. -/
structure BatchResult where
  outLines : List Str
  reformatted_count : Nat
  error_count : Nat
deriving DecidableEq, Repr

/-- Model of `reformat_jsonl_file` from `reformat_jsonl.py`, over the input file's
lines: skip blank lines, write one reformatted line per parsed record, count
an error (and write nothing) for a record whose processing fails. -/
def reformat_jsonl_file (parse : Str → Option Conv) (dump : Conv → Str) :
    List Str → BatchResult
  | [] => { outLines := [], reformatted_count := 0, error_count := 0 }
  | line :: rest =>
    let l := pyStrip line
    if l.isEmpty then reformat_jsonl_file parse dump rest
    else
      match parse l with
      | some conversation =>
        let r := reformat_jsonl_file parse dump rest
        { outLines := dump (reformat_ai_conversation conversation) :: r.outLines,
          reformatted_count := r.reformatted_count + 1,
          error_count := r.error_count }
      | none =>
        let r := reformat_jsonl_file parse dump rest
        { outLines := r.outLines,
          reformatted_count := r.reformatted_count,
          error_count := r.error_count + 1 }

/-- The line loop of `reformat_jsonl_lines`: the retained output lines (a
failing record keeps its stripped original line) and the number of error
reports printed. -/
def reformat_jsonl_linesCore (parse : Str → Option Conv) (dump : Conv → Str) :
    List Str → List Str × Nat
  | [] => ([], 0)
  | line :: rest =>
    let l := pyStrip line
    let r := reformat_jsonl_linesCore parse dump rest
    if l.isEmpty then r
    else
      match parse l with
      | some conversation =>
        (dump (reformat_ai_conversation conversation) :: r.1, r.2)
      | none => (l :: r.1, r.2 + 1)

/-- Model of `reformat_jsonl_lines` from `reformat_jsonl.py`: split the stripped
content on newlines, process each line, join the results; also returns the
number of error reports printed. -/
def reformat_jsonl_lines (parse : Str → Option Conv) (dump : Conv → Str)
    (jsonl_content : Str) : Str × Nat :=
  let r := reformat_jsonl_linesCore parse dump (splitOnPat ['\n'] (pyStrip jsonl_content))
  (joinNL r.1, r.2)

/-! ## Structured tagged messages

`mkDocMessage docs q` is the user message consisting of the documents
`docs`, each wrapped in `<DOCUMENT>` tags, followed by the trailing question
text `q`.  `mkTagged segs q` is the general form with arbitrary untagged
text before each document.  `mkQuoteMessage segs rest` is the assistant
message consisting, for each `(p, g)` in `segs`, of the plain text `p`
followed by the quote span `g` wrapped in quote markers, ending with
`rest`. -/

def mkDocMessage (docs : List Str) (q : Str) : Str :=
  (docs.map (fun d => openD ++ d ++ closeD)).flatten ++ q

def mkTagged (segs : List (Str × Str)) (q : Str) : Str :=
  (segs.map (fun pd => pd.1 ++ openD ++ pd.2 ++ closeD)).flatten ++ q

def mkQuoteMessage (segs : List (Str × Str)) (rest : Str) : Str :=
  (segs.map (fun pg => pg.1 ++ openQ ++ pg.2 ++ closeQ)).flatten ++ rest

/-! ## Quote replacement: spec-side characterization -/

/-- The quote-replacement contract as the spec states it: the citation
number is one more than the position of the *first* document (0-based, in
the given order) whose normalized text contains the normalized trimmed
quote; the span becomes the trimmed quote in backticks, with ` [i]`
appended exactly when such a document exists. -/
def specQuoteReplacement (docs : List Str) (g : Str) : Str :=
  let qt := pyStrip g
  match docs.findIdx? (fun d => containsSub (normalize_text qt) (normalize_text d)) with
  | some idx => btk ++ qt ++ btk ++ " [".data ++ natStr (idx + 1) ++ "]".data
  | none => btk ++ qt ++ btk

/-! ## Conversation-level spec-side definitions -/

/-- A `user`-role message whose content contains a `<DOCUMENT>` tag — the
messages at which the running documents list is replaced. -/
def isDocUserMsg (m : Msg) : Bool :=
  m.role.getD unknownRole == userRole && containsSub openD (m.content.getD [])

/-- The documents in scope after the given prior messages, as the spec
states it: those extracted from the most recent qualifying user turn, or
`init` when no such turn exists. -/
def docsFromPrior (init : List Str) (ms : List Msg) : List Str :=
  match (ms.filter isDocUserMsg).getLast? with
  | none => init
  | some m => extract_documents (m.content.getD [])

/-- The per-message output of the conversation reformatter, given the
documents in scope for that message. -/
def specTransform (docs : List Str) (m : Msg) : Msg :=
  let role := m.role.getD unknownRole
  let content := m.content.getD []
  if role == userRole && containsSub openD content then
    { role := some role, content := some (reformat_user_documents content), extra := [] }
  else if role == assistantRole && containsSub openQ content then
    { role := some role,
      content := some (reformat_quotes_with_citations content docs), extra := [] }
  else
    { role := some role, content := some content, extra := [] }

/-- A message that would still be picked up by a second reformatting pass. -/
def msgHasMarker (m : Msg) : Bool :=
  (m.role.getD unknownRole == userRole && containsSub openD (m.content.getD []))
    || (m.role.getD unknownRole == assistantRole && containsSub openQ (m.content.getD []))

/-- No message of the conversation would be picked up by a second pass. -/
def noResidualMarkers (cv : Conv) : Bool :=
  (cv.messages.getD []).all (fun m => !msgHasMarker m)

/-! ## Batch reformatting: per-line spec-side definitions -/

/-- A non-blank line whose record parses (and hence is reformatted). -/
def lineOk (parse : Str → Option Conv) (line : Str) : Bool :=
  !(pyStrip line).isEmpty && (parse (pyStrip line)).isSome

/-- A non-blank line whose record fails to parse (or process). -/
def lineErr (parse : Str → Option Conv) (line : Str) : Bool :=
  !(pyStrip line).isEmpty && (parse (pyStrip line)).isNone

/-- What the file variant writes for one input line, when anything: blank
lines and failing records produce nothing. -/
def fileLineOut (parse : Str → Option Conv) (dump : Conv → Str) (line : Str) : Option Str :=
  if (pyStrip line).isEmpty then none
  else (parse (pyStrip line)).map (fun cv => dump (reformat_ai_conversation cv))

/-- What the string variant retains for one input line, when anything:
blank lines produce nothing, failing records keep their stripped original
line. -/
def strLineOut (parse : Str → Option Conv) (dump : Conv → Str) (line : Str) : Option Str :=
  if (pyStrip line).isEmpty then none
  else
    match parse (pyStrip line) with
    | some cv => some (dump (reformat_ai_conversation cv))
    | none => some (pyStrip line)

/-- A parser on which every record fails. -/
def alwaysFailParse : Str → Option Conv := fun _ => none

/-- A trivial serializer. -/
def unitDump : Conv → Str := fun _ => []


/-! ## Correctness of the leftmost-occurrence scanner -/

theorem isPrefixOf_exists {pat l : Str} : pat.isPrefixOf l = true ↔ ∃ t, pat ++ t = l :=
  List.isPrefixOf_iff_prefix

theorem soa_of_isPrefixOf {pat l : Str} (h : pat.isPrefixOf l = true) :
    splitOnceAfter pat l = some ([], l.drop pat.length) := by
  cases l with
  | nil => simp [splitOnceAfter, h]
  | cons x rest => simp [splitOnceAfter, h]

theorem soa_of_not_isPrefixOf_cons {pat : Str} {x : Char} {rest : Str}
    (h : pat.isPrefixOf (x :: rest) = false) :
    splitOnceAfter pat (x :: rest)
      = (splitOnceAfter pat rest).map (fun ba => (x :: ba.1, ba.2)) := by
  simp [splitOnceAfter, h]

theorem soa_eq {pat : Str} :
    ∀ {l b a : Str}, splitOnceAfter pat l = some (b, a) → b ++ pat ++ a = l := by
  intro l
  induction l with
  | nil =>
    intro b a h
    cases hpre : pat.isPrefixOf [] with
    | true =>
      rw [soa_of_isPrefixOf hpre] at h
      obtain ⟨t, ht⟩ := isPrefixOf_exists.mp hpre
      simp only [List.drop_nil, Option.some.injEq, Prod.mk.injEq] at h
      obtain ⟨hb, ha⟩ := h
      subst hb; subst ha
      have hp : pat = [] := by
        cases pat with
        | nil => rfl
        | cons y ys => simp at ht
      simp [hp]
    | false => simp [splitOnceAfter, hpre] at h
  | cons x rest ih =>
    intro b a h
    cases hpre : pat.isPrefixOf (x :: rest) with
    | true =>
      rw [soa_of_isPrefixOf hpre] at h
      obtain ⟨t, ht⟩ := isPrefixOf_exists.mp hpre
      simp only [Option.some.injEq, Prod.mk.injEq] at h
      obtain ⟨hb, ha⟩ := h
      subst hb
      rw [← ht, List.drop_left] at ha
      subst ha
      simpa using ht
    | false =>
      rw [soa_of_not_isPrefixOf_cons hpre] at h
      cases hrec : splitOnceAfter pat rest with
      | none => rw [hrec] at h; simp at h
      | some ba =>
        obtain ⟨b', a'⟩ := ba
        rw [hrec] at h
        simp only [Option.map_some', Option.some.injEq, Prod.mk.injEq] at h
        obtain ⟨hb, ha⟩ := h
        subst hb; subst ha
        have hih := ih hrec
        simpa using congrArg (x :: ·) hih

theorem soa_occurs {pat : Str} : ∀ (s t : Str), (splitOnceAfter pat (s ++ pat ++ t)).isSome := by
  intro s
  induction s with
  | nil =>
    intro t
    have hpre : pat.isPrefixOf (pat ++ t) = true := isPrefixOf_exists.mpr ⟨t, rfl⟩
    simp only [List.nil_append]
    rw [soa_of_isPrefixOf hpre]
    simp
  | cons x s' ih =>
    intro t
    cases hpre : pat.isPrefixOf (x :: (s' ++ pat ++ t)) with
    | true =>
      rw [show x :: s' ++ pat ++ t = x :: (s' ++ pat ++ t) by simp,
        soa_of_isPrefixOf hpre]
      simp
    | false =>
      rw [show x :: s' ++ pat ++ t = x :: (s' ++ pat ++ t) by simp,
        soa_of_not_isPrefixOf_cons hpre]
      have hih := ih t
      cases hrec : splitOnceAfter pat (s' ++ pat ++ t) with
      | none => rw [hrec] at hih; simp at hih
      | some ba => simp [hrec]

theorem containsSub_of_occ {pat l s t : Str} (h : s ++ pat ++ t = l) :
    containsSub pat l = true := by
  unfold containsSub
  rw [← h]
  exact soa_occurs s t

theorem containsSub_false_no_occ {pat l : Str} (h : containsSub pat l = false) :
    ∀ s t, s ++ pat ++ t ≠ l := by
  intro s t hst
  rw [containsSub_of_occ hst] at h
  exact absurd h (by simp)

theorem soa_none_of_not_contains {pat l : Str} (h : containsSub pat l = false) :
    splitOnceAfter pat l = none := by
  unfold containsSub at h
  cases hs : splitOnceAfter pat l with
  | none => rfl
  | some ba => rw [hs] at h; simp at h

theorem containsSub_nil_left (l : Str) : containsSub [] l = true :=
  containsSub_of_occ (s := []) (t := l) rfl

theorem containsSub_tail {pat : Str} {x : Char} {rest : Str}
    (h : containsSub pat (x :: rest) = false) : containsSub pat rest = false := by
  unfold containsSub at h ⊢
  cases hpre : pat.isPrefixOf (x :: rest) with
  | true => rw [soa_of_isPrefixOf hpre] at h; simp at h
  | false =>
    rw [soa_of_not_isPrefixOf_cons hpre] at h
    cases hrec : splitOnceAfter pat rest with
    | none => simp
    | some ba => rw [hrec] at h; simp at h

theorem occ_in_left {pat L R : Str} (hlen : pat.length ≤ L.length)
    (hpre : pat.isPrefixOf (L ++ R) = true) : ∃ s t, s ++ pat ++ t = L := by
  obtain ⟨u, hu⟩ := isPrefixOf_exists.mp hpre
  rcases List.append_eq_append_iff.mp hu with ⟨a', ha1, _⟩ | ⟨c', hc1, _⟩
  · exact ⟨[], a', by simp [ha1]⟩
  · have hlen2 : L.length + c'.length ≤ L.length := by
      have hl := congrArg List.length hc1
      simp only [List.length_append] at hl
      omega
    have hc : c' = [] := by
      have : c'.length = 0 := by omega
      exact List.length_eq_zero.mp this
    exact ⟨[], [], by simp [hc1, hc]⟩

theorem soa_first {pat : Str} :
    ∀ {b : Str} (a : Str), containsSub pat (b ++ pat.dropLast) = false →
      splitOnceAfter pat (b ++ pat ++ a) = some (b, a) := by
  intro b
  induction b with
  | nil =>
    intro a _
    have hpre : pat.isPrefixOf (pat ++ a) = true := isPrefixOf_exists.mpr ⟨a, rfl⟩
    simp only [List.nil_append]
    rw [soa_of_isPrefixOf hpre, List.drop_left]
  | cons x b' ih =>
    intro a h
    have hpat : pat ≠ [] := by
      intro hp
      rw [hp, containsSub_nil_left] at h
      exact absurd h (by simp)
    have hlpos : 0 < pat.length := List.length_pos.mpr hpat
    have hnpre : pat.isPrefixOf (x :: (b' ++ pat ++ a)) = false := by
      cases hp : pat.isPrefixOf (x :: (b' ++ pat ++ a)) with
      | false => rfl
      | true =>
        exfalso
        have hsplit : x :: (b' ++ pat ++ a)
            = ((x :: b') ++ pat.dropLast) ++ ([pat.getLast hpat] ++ a) := by
          conv_lhs => rw [← List.dropLast_concat_getLast hpat]
          simp [List.append_assoc]
        have hlen : pat.length ≤ ((x :: b') ++ pat.dropLast).length := by
          simp only [List.length_append, List.length_cons, List.length_dropLast]
          omega
        rw [hsplit] at hp
        obtain ⟨s, t, hst⟩ := occ_in_left hlen hp
        exact containsSub_false_no_occ h s t (by simpa using hst)
    rw [show x :: b' ++ pat ++ a = x :: (b' ++ pat ++ a) by simp,
      soa_of_not_isPrefixOf_cons hnpre]
    have hih := ih a (containsSub_tail (by simpa using h))
    rw [hih]
    rfl
/-! ## Unfolding and fuel-independence of the scanners -/

theorem findAllAux_succ_none {o c : Str} {fuel : Nat} {l : Str}
    (h : splitOnceAfter o l = none) : findAllAux o c (fuel + 1) l = [] := by
  simp [findAllAux, h]

theorem findAllAux_succ_noclose {o c : Str} {fuel : Nat} {l p r1 : Str}
    (h1 : splitOnceAfter o l = some (p, r1)) (h2 : splitOnceAfter c r1 = none) :
    findAllAux o c (fuel + 1) l = [] := by
  simp [findAllAux, h1, h2]

theorem findAllAux_succ_some {o c : Str} {fuel : Nat} {l p r1 d r2 : Str}
    (h1 : splitOnceAfter o l = some (p, r1)) (h2 : splitOnceAfter c r1 = some (d, r2)) :
    findAllAux o c (fuel + 1) l = d :: findAllAux o c fuel r2 := by
  simp [findAllAux, h1, h2]

theorem findAllAux_mono {o c : Str} (ho : o ≠ []) (hc : c ≠ []) :
    ∀ (f1 : Nat) {l : Str} (f2 : Nat), l.length < f1 → l.length < f2 →
      findAllAux o c f1 l = findAllAux o c f2 l := by
  intro f1
  induction f1 with
  | zero => intro l f2 h1 _; omega
  | succ f1 ih =>
    intro l f2 h1 h2
    cases f2 with
    | zero => omega
    | succ f2 =>
      cases hs1 : splitOnceAfter o l with
      | none => rw [findAllAux_succ_none hs1, findAllAux_succ_none hs1]
      | some pr1 =>
        obtain ⟨p, r1⟩ := pr1
        cases hs2 : splitOnceAfter c r1 with
        | none => rw [findAllAux_succ_noclose hs1 hs2, findAllAux_succ_noclose hs1 hs2]
        | some dr2 =>
          obtain ⟨d, r2⟩ := dr2
          rw [findAllAux_succ_some hs1 hs2, findAllAux_succ_some hs1 hs2]
          have hlen1 := congrArg List.length (soa_eq hs1)
          have hlen2 := congrArg List.length (soa_eq hs2)
          simp only [List.length_append] at hlen1 hlen2
          have hoo : 0 < o.length := List.length_pos.mpr ho
          have hcc : 0 < c.length := List.length_pos.mpr hc
          congr 1
          exact ih f2 (by omega) (by omega)

theorem findAllBetween_step {o c p d rest : Str} (ho : o ≠ []) (hc : c ≠ [])
    (hp : containsSub o (p ++ o.dropLast) = false)
    (hd : containsSub c (d ++ c.dropLast) = false) :
    findAllBetween o c (p ++ o ++ (d ++ c ++ rest)) = d :: findAllBetween o c rest := by
  unfold findAllBetween
  have h1 : splitOnceAfter o (p ++ o ++ (d ++ c ++ rest)) = some (p, d ++ c ++ rest) :=
    soa_first (d ++ c ++ rest) hp
  have h2 : splitOnceAfter c (d ++ c ++ rest) = some (d, rest) := soa_first rest hd
  rw [findAllAux_succ_some h1 h2]
  congr 1
  have hoo : 0 < o.length := List.length_pos.mpr ho
  have hcc : 0 < c.length := List.length_pos.mpr hc
  have hfl : rest.length < (p ++ o ++ (d ++ c ++ rest)).length := by
    simp only [List.length_append]
    omega
  exact findAllAux_mono ho hc _ _ hfl (by omega)

theorem findAllBetween_nil {o c l : Str} (h : containsSub o l = false) :
    findAllBetween o c l = [] := by
  unfold findAllBetween
  exact findAllAux_succ_none (soa_none_of_not_contains h)

theorem splitOnPatAux_succ_none {pat : Str} {fuel : Nat} {l : Str}
    (h : splitOnceAfter pat l = none) : splitOnPatAux pat (fuel + 1) l = [l] := by
  simp [splitOnPatAux, h]

theorem splitOnPatAux_succ_some {pat : Str} {fuel : Nat} {l b a : Str}
    (h : splitOnceAfter pat l = some (b, a)) :
    splitOnPatAux pat (fuel + 1) l = b :: splitOnPatAux pat fuel a := by
  simp [splitOnPatAux, h]

theorem splitOnPatAux_mono {pat : Str} (hpat : pat ≠ []) :
    ∀ (f1 : Nat) {l : Str} (f2 : Nat), l.length < f1 → l.length < f2 →
      splitOnPatAux pat f1 l = splitOnPatAux pat f2 l := by
  intro f1
  induction f1 with
  | zero => intro l f2 h1 _; omega
  | succ f1 ih =>
    intro l f2 h1 h2
    cases f2 with
    | zero => omega
    | succ f2 =>
      cases hs : splitOnceAfter pat l with
      | none => rw [splitOnPatAux_succ_none hs, splitOnPatAux_succ_none hs]
      | some ba =>
        obtain ⟨b, a⟩ := ba
        rw [splitOnPatAux_succ_some hs, splitOnPatAux_succ_some hs]
        have hlen := congrArg List.length (soa_eq hs)
        simp only [List.length_append] at hlen
        have hpp : 0 < pat.length := List.length_pos.mpr hpat
        congr 1
        exact ih f2 (by omega) (by omega)

theorem splitOnPat_step {pat b rest : Str} (hpat : pat ≠ [])
    (hb : containsSub pat (b ++ pat.dropLast) = false) :
    splitOnPat pat (b ++ pat ++ rest) = b :: splitOnPat pat rest := by
  unfold splitOnPat
  rw [splitOnPatAux_succ_some (soa_first rest hb)]
  congr 1
  have hpp : 0 < pat.length := List.length_pos.mpr hpat
  exact splitOnPatAux_mono hpat _ _ (by simp [List.length_append]; omega) (by omega)

theorem splitOnPat_nil {pat l : Str} (h : containsSub pat l = false) :
    splitOnPat pat l = [l] := by
  unfold splitOnPat
  exact splitOnPatAux_succ_none (soa_none_of_not_contains h)

theorem pySubAux_succ_none {o c : Str} {f : Str → Str} {fuel : Nat} {l : Str}
    (h : splitOnceAfter o l = none) : pySubAux o c f (fuel + 1) l = l := by
  simp [pySubAux, h]

theorem pySubAux_succ_noclose {o c : Str} {f : Str → Str} {fuel : Nat} {l p r1 : Str}
    (h1 : splitOnceAfter o l = some (p, r1)) (h2 : splitOnceAfter c r1 = none) :
    pySubAux o c f (fuel + 1) l = l := by
  simp [pySubAux, h1, h2]

theorem pySubAux_succ_some {o c : Str} {f : Str → Str} {fuel : Nat} {l p r1 g r2 : Str}
    (h1 : splitOnceAfter o l = some (p, r1))
    (h2 : splitOnceAfter c r1 = some (g, r2)) :
    pySubAux o c f (fuel + 1) l = p ++ f g ++ pySubAux o c f fuel r2 := by
  simp [pySubAux, h1, h2]

theorem pySubAux_mono {o c : Str} (ho : o ≠ []) (hc : c ≠ []) {f : Str → Str} :
    ∀ (f1 : Nat) {l : Str} (f2 : Nat), l.length < f1 → l.length < f2 →
      pySubAux o c f f1 l = pySubAux o c f f2 l := by
  intro f1
  induction f1 with
  | zero => intro l f2 h1 _; omega
  | succ f1 ih =>
    intro l f2 h1 h2
    cases f2 with
    | zero => omega
    | succ f2 =>
      cases hs1 : splitOnceAfter o l with
      | none => rw [pySubAux_succ_none hs1, pySubAux_succ_none hs1]
      | some pr1 =>
        obtain ⟨p, r1⟩ := pr1
        cases hs2 : splitOnceAfter c r1 with
        | none => rw [pySubAux_succ_noclose hs1 hs2, pySubAux_succ_noclose hs1 hs2]
        | some gr2 =>
          obtain ⟨g, r2⟩ := gr2
          rw [pySubAux_succ_some hs1 hs2, pySubAux_succ_some hs1 hs2]
          have hlen1 := congrArg List.length (soa_eq hs1)
          have hlen2 := congrArg List.length (soa_eq hs2)
          simp only [List.length_append] at hlen1 hlen2
          have hoo : 0 < o.length := List.length_pos.mpr ho
          have hcc : 0 < c.length := List.length_pos.mpr hc
          have hrec := ih f2 (l := r2) (by omega) (by omega)
          rw [hrec]

theorem pySub_step {o c p g rest : Str} (ho : o ≠ []) (hc : c ≠ []) {f : Str → Str}
    (hp : containsSub o (p ++ o.dropLast) = false)
    (hg : containsSub c (g ++ c.dropLast) = false) :
    pySub o c f (p ++ o ++ (g ++ c ++ rest)) = p ++ f g ++ pySub o c f rest := by
  unfold pySub
  have h1 : splitOnceAfter o (p ++ o ++ (g ++ c ++ rest)) = some (p, g ++ c ++ rest) :=
    soa_first (g ++ c ++ rest) hp
  have h2 : splitOnceAfter c (g ++ c ++ rest) = some (g, rest) := soa_first rest hg
  rw [pySubAux_succ_some h1 h2]
  have hoo : 0 < o.length := List.length_pos.mpr ho
  have hcc : 0 < c.length := List.length_pos.mpr hc
  have hfl : rest.length < (p ++ o ++ (g ++ c ++ rest)).length := by
    simp only [List.length_append]
    omega
  have hrec := pySubAux_mono ho hc (f := f) _ (l := rest) (rest.length + 1) hfl (by omega)
  rw [hrec]

theorem pySub_nil {o c l : Str} {f : Str → Str} (h : containsSub o l = false) :
    pySub o c f l = l := by
  unfold pySub
  exact pySubAux_succ_none (soa_none_of_not_contains h)
/-! ## Further facts about substring occurrence -/

theorem containsSub_true_occ {pat l : Str} (h : containsSub pat l = true) :
    ∃ s t, s ++ pat ++ t = l := by
  unfold containsSub at h
  cases hs : splitOnceAfter pat l with
  | none => rw [hs] at h; simp at h
  | some ba =>
    obtain ⟨b, a⟩ := ba
    exact ⟨b, a, soa_eq hs⟩

theorem containsSub_append_left_of {pat l : Str} (s : Str)
    (h : containsSub pat l = true) : containsSub pat (s ++ l) = true := by
  obtain ⟨u, v, huv⟩ := containsSub_true_occ h
  exact containsSub_of_occ (s := s ++ u) (t := v) (by rw [← huv]; simp [List.append_assoc])

theorem notContains_dropLast {pat : Str} (h : pat ≠ []) :
    containsSub pat pat.dropLast = false := by
  cases hc : containsSub pat pat.dropLast with
  | false => rfl
  | true =>
    exfalso
    obtain ⟨s, t, hst⟩ := containsSub_true_occ hc
    have hl := congrArg List.length hst
    simp only [List.length_append, List.length_dropLast] at hl
    have hp := List.length_pos.mpr h
    omega

theorem findAll_mkDoc : ∀ (docs : List Str) {q : Str},
    (∀ d ∈ docs, containsSub closeD (openD ++ d ++ closeD.dropLast) = false) →
    containsSub openD q = false →
    findAllBetween openD closeD (mkDocMessage docs q) = docs := by
  intro docs
  induction docs with
  | nil =>
    intro q _ hq
    simpa [mkDocMessage] using findAllBetween_nil hq
  | cons d ds ih =>
    intro q hdocs hq
    have hd := hdocs d (by simp)
    have hd' : containsSub closeD (d ++ closeD.dropLast) = false := by
      cases hcc : containsSub closeD (d ++ closeD.dropLast) with
      | false => rfl
      | true =>
        exfalso
        have hmono := containsSub_append_left_of openD hcc
        rw [show openD ++ (d ++ closeD.dropLast) = openD ++ d ++ closeD.dropLast by
          simp [List.append_assoc]] at hmono
        rw [hmono] at hd
        exact absurd hd (by simp)
    have hshape : mkDocMessage (d :: ds) q = [] ++ openD ++ (d ++ closeD ++ mkDocMessage ds q) := by
      simp [mkDocMessage, List.append_assoc]
    rw [hshape, findAllBetween_step (by decide) (by decide)
      (by simpa using @notContains_dropLast openD (by decide)) hd']
    rw [ih (fun d hm => hdocs d (by simp [hm])) hq]

theorem splitOnPat_mkDoc : ∀ (docs : List Str) {q : Str},
    (∀ d ∈ docs, containsSub closeD (openD ++ d ++ closeD.dropLast) = false) →
    containsSub closeD q = false →
    splitOnPat closeD (mkDocMessage docs q) = docs.map (fun d => openD ++ d) ++ [q] := by
  intro docs
  induction docs with
  | nil =>
    intro q _ hq
    simpa [mkDocMessage] using splitOnPat_nil hq
  | cons d ds ih =>
    intro q hdocs hq
    have hd := hdocs d (by simp)
    have hshape : mkDocMessage (d :: ds) q = openD ++ d ++ closeD ++ mkDocMessage ds q := by
      simp [mkDocMessage, List.append_assoc]
    rw [hshape, splitOnPat_step (by decide) hd]
    rw [ih (fun d hm => hdocs d (by simp [hm])) hq]
    simp

theorem findAll_mkTagged : ∀ (segs : List (Str × Str)) {q : Str},
    (∀ pd ∈ segs, containsSub openD (pd.1 ++ openD.dropLast) = false ∧
      containsSub closeD (pd.2 ++ closeD.dropLast) = false) →
    containsSub openD q = false →
    findAllBetween openD closeD (mkTagged segs q) = segs.map (fun pd => pd.2) := by
  intro segs
  induction segs with
  | nil =>
    intro q _ hq
    simpa [mkTagged] using findAllBetween_nil hq
  | cons pd segs' ih =>
    intro q hsegs hq
    obtain ⟨p, d⟩ := pd
    obtain ⟨hp, hd⟩ := hsegs (p, d) (by simp)
    have hshape : mkTagged ((p, d) :: segs') q = p ++ openD ++ (d ++ closeD ++ mkTagged segs' q) := by
      simp [mkTagged, List.append_assoc]
    rw [hshape, findAllBetween_step (by decide) (by decide) hp hd]
    rw [ih (fun pd hm => hsegs pd (by simp [hm])) hq]
    simp
/-! ## Claim C1 -/

/-- C1 (counterexample): the claim renders document lines as `[i] <doc>`,
but `reformat_user_documents` renders them in the indented bullet style
`  - [i] <doc>`: on the message `<DOCUMENT>Doc 1</DOCUMENT>Question?` the
output is `Sources:\n  - [1] Doc 1\n\nQuestion?`, not
`Sources:\n[1] Doc 1\n\nQuestion?`. -/
theorem C1_counterexample :
    reformat_user_documents "<DOCUMENT>Doc 1</DOCUMENT>Question?".data
      = "Sources:\n  - [1] Doc 1\n\nQuestion?".data ∧
    "Sources:\n  - [1] Doc 1\n\nQuestion?".data ≠ "Sources:\n[1] Doc 1\n\nQuestion?".data := by
  constructor
  · decide
  · decide

/-- C1 (amended): for a user message built from `N ≥ 1` tagged documents
followed by trailing question text `Q` (documents and question free of stray
tag occurrences), `reformat_user_documents` returns the header line
`Sources:`, then one line per document of the form `  - [i] <trimmed doc>`
with 1-based index `i`, then — when the trimmed question is non-empty — a
blank line followed by the trimmed question; the question section is omitted
entirely when the trimmed question is empty. -/
theorem C1_theorem (docs : List Str) (q : Str) (hne : docs ≠ [])
    (hdocs : ∀ d ∈ docs, containsSub closeD (openD ++ d ++ closeD.dropLast) = false)
    (hq1 : containsSub openD q = false) (hq2 : containsSub closeD q = false) :
    reformat_user_documents (mkDocMessage docs q) =
      joinNL ("Sources:".data ::
        (docs.enum.map (fun p => "  - [".data ++ natStr (p.1 + 1) ++ "] ".data ++ pyStrip p.2)
          ++ (if (pyStrip q).isEmpty then [] else [[], pyStrip q]))) := by
  have hfind := findAll_mkDoc docs hdocs hq1
  have hsplit := splitOnPat_mkDoc docs hdocs hq2
  obtain ⟨d, ds, rfl⟩ : ∃ d ds, docs = d :: ds := by
    cases docs with
    | nil => exact absurd rfl hne
    | cons d ds => exact ⟨d, ds, rfl⟩
  simp only [reformat_user_documents, hfind, hsplit]
  have hlast : ((d :: ds).map (fun d => openD ++ d) ++ [q]).getLast? = some q :=
    List.getLast?_concat _
  have hlen : 1 < ((d :: ds).map (fun d => openD ++ d) ++ [q]).length := by
    simp [List.length_append]
  simp only [hlast, hlen, if_true, List.isEmpty_cons, Bool.false_eq_true, if_false,
    Option.getD_some]
  cases hqe : (pyStrip q).isEmpty with
  | true => simp [hqe]
  | false => simp [hqe]

/-- C1 (witness). -/
theorem C1_witness :
    (["Doc 1".data, "Doc 2".data] : List Str) ≠ [] ∧
    (∀ d ∈ (["Doc 1".data, "Doc 2".data] : List Str),
      containsSub closeD (openD ++ d ++ closeD.dropLast) = false) ∧
    containsSub openD "Question?".data = false ∧
    containsSub closeD "Question?".data = false ∧
    reformat_user_documents (mkDocMessage ["Doc 1".data, "Doc 2".data] "Question?".data) =
      joinNL ("Sources:".data ::
        ((["Doc 1".data, "Doc 2".data] : List Str).enum.map
            (fun p => "  - [".data ++ natStr (p.1 + 1) ++ "] ".data ++ pyStrip p.2)
          ++ (if (pyStrip "Question?".data).isEmpty then []
              else [[], pyStrip "Question?".data]))) :=
  ⟨by decide, by decide, by decide, by decide,
    C1_theorem _ _ (by decide) (by decide) (by decide) (by decide)⟩

/-! ## Claim C5 -/

/-- C5: for any text consisting of interleaved untagged segments and
`<DOCUMENT>...</DOCUMENT>` pairs followed by trailing text (tags balanced, no
stray tag occurrences), `extract_documents` returns exactly the inner text of
each pair, trimmed, in left-to-right order — in particular the empty list
when there is no pair; the embedding is a total function, so no input can
raise. -/
theorem C5_theorem (segs : List (Str × Str)) (q : Str)
    (hsegs : ∀ pd ∈ segs, containsSub openD (pd.1 ++ openD.dropLast) = false ∧
      containsSub closeD (pd.2 ++ closeD.dropLast) = false)
    (hq : containsSub openD q = false) :
    extract_documents (mkTagged segs q) = segs.map (fun pd => pyStrip pd.2) := by
  unfold extract_documents
  rw [findAll_mkTagged segs hsegs hq]
  simp [List.map_map, Function.comp]

/-- C5 (witness). -/
theorem C5_witness :
    (∀ pd ∈ ([("intro ".data, " Doc A ".data), ([], "Doc B".data)] : List (Str × Str)),
      containsSub openD (pd.1 ++ openD.dropLast) = false ∧
      containsSub closeD (pd.2 ++ closeD.dropLast) = false) ∧
    containsSub openD "Q?".data = false ∧
    extract_documents
        (mkTagged [("intro ".data, " Doc A ".data), ([], "Doc B".data)] "Q?".data)
      = ([("intro ".data, " Doc A ".data), ([], "Doc B".data)] : List (Str × Str)).map
          (fun pd => pyStrip pd.2) :=
  ⟨by decide, by decide, C5_theorem _ _ (by decide) (by decide)⟩
theorem findCitation_eq_findIdx (nq : Str) :
    ∀ (docs : List Str) (i : Nat),
      findCitation nq docs i = docs.findIdx? (fun d => containsSub nq (normalize_text d)) i := by
  intro docs
  induction docs with
  | nil => intro i; rfl
  | cons d ds ih =>
    intro i
    rw [findCitation, List.findIdx?_cons]
    split
    · rfl
    · exact ih (i + 1)

theorem replace_quote_eq_spec (docs : List Str) (g : Str) :
    replace_quote docs g = specQuoteReplacement docs g := by
  unfold replace_quote specQuoteReplacement
  dsimp only
  rw [findCitation_eq_findIdx]
  rw [show (1 : Nat) = 0 + 1 by rfl, List.findIdx?_start_succ]
  cases hidx : List.findIdx? (fun d => containsSub (normalize_text (pyStrip g)) (normalize_text d)) docs 0 with
  | none => simp
  | some idx => simp

theorem pySub_mkQuote : ∀ (segs : List (Str × Str)) {rest : Str} (f : Str → Str),
    (∀ pg ∈ segs, containsSub openQ (pg.1 ++ openQ.dropLast) = false ∧
      containsSub closeQ (pg.2 ++ closeQ.dropLast) = false) →
    containsSub openQ rest = false →
    pySub openQ closeQ f (mkQuoteMessage segs rest)
      = (segs.map (fun pg => pg.1 ++ f pg.2)).flatten ++ rest := by
  intro segs
  induction segs with
  | nil =>
    intro rest f _ hrest
    simpa [mkQuoteMessage] using pySub_nil (f := f) hrest
  | cons pg segs' ih =>
    intro rest f hsegs hrest
    obtain ⟨p, g⟩ := pg
    obtain ⟨hp, hg⟩ := hsegs (p, g) (by simp)
    have hshape : mkQuoteMessage ((p, g) :: segs') rest
        = p ++ openQ ++ (g ++ closeQ ++ mkQuoteMessage segs' rest) := by
      simp [mkQuoteMessage, List.append_assoc]
    rw [hshape, pySub_step (by decide) (by decide) hp hg]
    rw [ih f (fun pg hm => hsegs pg (by simp [hm])) hrest]
    simp [List.append_assoc]

/-! ## Claim C3 -/

/-- C3: on a message built from plain segments and quote spans (no stray
marker occurrences), `reformat_quotes_with_citations` rewrites every quote
span independently: each becomes its trimmed text wrapped in backticks,
suffixed with ` [i]` exactly when document `i` is the first document (in the
given order, 1-based, earliest wins) whose whitespace-normalized text
contains the whitespace-normalized trimmed quote as a substring, and with no
suffix when no document matches. -/
theorem C3_theorem (segs : List (Str × Str)) (rest : Str) (docs : List Str)
    (hsegs : ∀ pg ∈ segs, containsSub openQ (pg.1 ++ openQ.dropLast) = false ∧
      containsSub closeQ (pg.2 ++ closeQ.dropLast) = false)
    (hrest : containsSub openQ rest = false) :
    reformat_quotes_with_citations (mkQuoteMessage segs rest) docs
      = (segs.map (fun pg => pg.1 ++ specQuoteReplacement docs pg.2)).flatten ++ rest := by
  unfold reformat_quotes_with_citations
  rw [pySub_mkQuote segs _ hsegs hrest]
  simp only [replace_quote_eq_spec]

/-- C3 (witness): the quote `Doc 1` matches the second document but not the
first, so it is cited `[2]`. -/
theorem C3_witness :
    (∀ pg ∈ ([("Answer ".data, "Doc 1".data)] : List (Str × Str)),
      containsSub openQ (pg.1 ++ openQ.dropLast) = false ∧
      containsSub closeQ (pg.2 ++ closeQ.dropLast) = false) ∧
    containsSub openQ ".".data = false ∧
    reformat_quotes_with_citations
        (mkQuoteMessage [("Answer ".data, "Doc 1".data)] ".".data)
        ["other".data, "has Doc 1 inside".data]
      = (([("Answer ".data, "Doc 1".data)] : List (Str × Str)).map
          (fun pg => pg.1 ++ specQuoteReplacement ["other".data, "has Doc 1 inside".data] pg.2)).flatten
        ++ ".".data :=
  ⟨by decide, by decide, C3_theorem _ _ _ (by decide) (by decide)⟩
/-! ## Claims C6 and C10: unmatched and empty quotes -/

theorem findCitation_none {nq : Str} :
    ∀ (docs : List Str) (i : Nat),
      (∀ d ∈ docs, containsSub nq (normalize_text d) = false) →
      findCitation nq docs i = none := by
  intro docs
  induction docs with
  | nil => intro i _; rfl
  | cons d ds ih =>
    intro i h
    rw [findCitation]
    rw [h d (by simp)]
    simp only [Bool.false_eq_true, if_false]
    exact ih (i + 1) (fun d hm => h d (by simp [hm]))

/-- C6: a quote span whose normalized trimmed text is contained in no
document of the list — in particular whenever the list is empty — is
replaced by the trimmed quote wrapped in backticks with no bracketed
citation suffix; both `replace_quote` and the full message-level
`reformat_quotes_with_citations` behave this way, and both are total
functions, so this situation is not an error. -/
theorem C6_theorem (docs : List Str) (g p rest : Str)
    (hnone : ∀ d ∈ docs, containsSub (normalize_text (pyStrip g)) (normalize_text d) = false)
    (hp : containsSub openQ (p ++ openQ.dropLast) = false)
    (hg : containsSub closeQ (g ++ closeQ.dropLast) = false)
    (hrest : containsSub openQ rest = false) :
    replace_quote docs g = btk ++ pyStrip g ++ btk ∧
    reformat_quotes_with_citations (p ++ openQ ++ (g ++ closeQ ++ rest)) docs
      = p ++ (btk ++ pyStrip g ++ btk) ++ rest := by
  have hrq : replace_quote docs g = btk ++ pyStrip g ++ btk := by
    unfold replace_quote
    dsimp only
    rw [findCitation_none docs 1 hnone]
  refine ⟨hrq, ?_⟩
  unfold reformat_quotes_with_citations
  rw [pySub_step (by decide) (by decide) hp hg, pySub_nil hrest, hrq]

/-- C6 (witness): empty document list. -/
theorem C6_witness :
    (∀ d ∈ ([] : List Str),
      containsSub (normalize_text (pyStrip " a quote ".data)) (normalize_text d) = false) ∧
    containsSub openQ ("Say ".data ++ openQ.dropLast) = false ∧
    containsSub closeQ (" a quote ".data ++ closeQ.dropLast) = false ∧
    containsSub openQ "!".data = false ∧
    replace_quote [] " a quote ".data = btk ++ pyStrip " a quote ".data ++ btk ∧
    reformat_quotes_with_citations
        ("Say ".data ++ openQ ++ (" a quote ".data ++ closeQ ++ "!".data)) []
      = "Say ".data ++ (btk ++ pyStrip " a quote ".data ++ btk) ++ "!".data := by
  have h := C6_theorem [] " a quote ".data "Say ".data "!".data
    (by decide) (by decide) (by decide) (by decide)
  exact ⟨by decide, by decide, by decide, by decide, h.1, h.2⟩

theorem pyStrip_of_all_space {g : Str} (h : ∀ a ∈ g, pySpace a = true) :
    pyStrip g = [] := by
  unfold pyStrip
  rw [List.dropWhile_eq_nil_iff.mpr h]
  simp

theorem notContains_of_all_space (x : Char) (s : Str) {pat g : Str}
    (hpat : pat = x :: s) (hx : pySpace x = false)
    (hws : ∀ a ∈ g, pySpace a = true) :
    containsSub pat (g ++ pat.dropLast) = false := by
  cases hc : containsSub pat (g ++ pat.dropLast) with
  | false => rfl
  | true =>
    exfalso
    obtain ⟨u, t, hst⟩ := containsSub_true_occ hc
    have hl := congrArg List.length hst
    simp only [List.length_append, List.length_dropLast, hpat, List.length_cons] at hl
    have hult : u.length < g.length := by omega
    have hshape : u ++ pat ++ t = u ++ (x :: (s ++ t)) := by
      simp [hpat, List.append_assoc]
    rw [hshape] at hst
    have hmem : x ∈ g := by
      rcases List.append_eq_append_iff.mp hst with ⟨a2, hg, hb⟩ | ⟨c2, hu, _⟩
      · cases a2 with
        | nil =>
          exfalso
          have hlg := congrArg List.length hg
          simp only [List.append_nil] at hlg
          omega
        | cons y a3 =>
          simp only [List.cons_append, List.cons.injEq] at hb
          rw [hg, hb.1]
          simp
      · exfalso
        have hlu := congrArg List.length hu
        simp only [List.length_append] at hlu
        omega
    rw [hws x hmem] at hx
    exact absurd hx (by simp)

/-- C10: with a non-empty documents list, a quote span whose captured text
is empty or whitespace-only is assigned citation number 1 (the normalized
empty quote is a substring of every document's normalized text, so the first
document wins), and the span is replaced by an empty backtick pair followed
by ` [1]`; this holds for `replace_quote` and for the full
`reformat_quotes_with_citations`. -/
theorem C10_theorem (d : Str) (ds : List Str) (g p rest : Str)
    (hws : ∀ a ∈ g, pySpace a = true)
    (hp : containsSub openQ (p ++ openQ.dropLast) = false)
    (hrest : containsSub openQ rest = false) :
    replace_quote (d :: ds) g = btk ++ btk ++ " [1]".data ∧
    reformat_quotes_with_citations (p ++ openQ ++ (g ++ closeQ ++ rest)) (d :: ds)
      = p ++ (btk ++ btk ++ " [1]".data) ++ rest := by
  have hstrip : pyStrip g = [] := pyStrip_of_all_space hws
  have hrq : replace_quote (d :: ds) g = btk ++ btk ++ " [1]".data := by
    unfold replace_quote
    dsimp only
    rw [hstrip]
    rw [show normalize_text [] = [] from rfl]
    rw [findCitation]
    rw [containsSub_nil_left]
    simp only [if_true]
    decide
  refine ⟨hrq, ?_⟩
  have hg : containsSub closeQ (g ++ closeQ.dropLast) = false :=
    notContains_of_all_space '#' "#end_quote##".data (by decide) (by decide) hws
  unfold reformat_quotes_with_citations
  rw [pySub_step (by decide) (by decide) hp hg, pySub_nil hrest, hrq]

/-- C10 (witness): the literal empty span `##begin_quote####end_quote##`. -/
theorem C10_witness :
    (∀ a ∈ ([] : Str), pySpace a = true) ∧
    containsSub openQ ("A ".data ++ openQ.dropLast) = false ∧
    containsSub openQ ".".data = false ∧
    replace_quote ["Doc".data] [] = btk ++ btk ++ " [1]".data ∧
    reformat_quotes_with_citations ("A ".data ++ openQ ++ ([] ++ closeQ ++ ".".data))
        ["Doc".data]
      = "A ".data ++ (btk ++ btk ++ " [1]".data) ++ ".".data := by
  have h := C10_theorem "Doc".data [] [] "A ".data ".".data
    (by decide) (by decide) (by decide)
  exact ⟨by decide, by decide, by decide, h.1, h.2⟩
/-! ## The running documents list: stateful loop vs. spec -/

theorem docsFromPrior_nil (init : List Str) : docsFromPrior init [] = init := rfl

theorem docsFromPrior_cons (init : List Str) (m : Msg) (ms : List Msg) :
    docsFromPrior init (m :: ms)
      = docsFromPrior
          (if isDocUserMsg m then extract_documents (m.content.getD []) else init) ms := by
  unfold docsFromPrior
  cases hm : isDocUserMsg m with
  | false => simp [List.filter_cons, hm]
  | true =>
    simp only [List.filter_cons, hm, if_true]
    cases hfil : ms.filter isDocUserMsg with
    | nil => simp
    | cons a l =>
      cases hgl : (a :: l).getLast? with
      | none => simp at hgl
      | some b => simp [hgl]

theorem processMessages_eq_mapIdx : ∀ (ms : List Msg) (docs : List Str),
    processMessages docs ms
      = ms.mapIdx (fun i m => specTransform (docsFromPrior docs (ms.take i)) m) := by
  intro ms
  induction ms with
  | nil => intro docs; rfl
  | cons m tl ih =>
    intro docs
    rw [List.mapIdx_cons]
    have htake0 : docsFromPrior docs (List.take 0 (m :: tl)) = docs := rfl
    have htail : ∀ i : Nat, docsFromPrior docs (List.take (i + 1) (m :: tl))
        = docsFromPrior
            (if isDocUserMsg m then extract_documents (m.content.getD []) else docs)
            (List.take i tl) := by
      intro i
      rw [List.take_succ_cons, docsFromPrior_cons]
    simp only [htake0, htail]
    rw [← ih]
    simp only [processMessages, specTransform, isDocUserMsg]
    by_cases hu : (m.role.getD unknownRole == userRole
        && containsSub openD (m.content.getD [])) = true
    · simp [hu]
    · simp only [Bool.not_eq_true] at hu
      by_cases ha : (m.role.getD unknownRole == assistantRole
          && containsSub openQ (m.content.getD [])) = true
      · simp [hu, ha]
      · simp only [Bool.not_eq_true] at ha
        simp [hu, ha]
/-! ## Claim C4 -/

/-- C4: `reformat_ai_conversation` preserves message order, and the
documents list it carries starts empty and is *replaced* at each user
message containing `<DOCUMENT>`; equivalently, the message at position `i`
is transformed using exactly the documents extracted from the most recent
qualifying user turn among the messages strictly before `i` (the empty list
when there is none). -/
theorem C4_theorem (ms : List Msg) :
    reformat_ai_conversation { messages := some ms }
      = { messages :=
          some (ms.mapIdx (fun i m => specTransform (docsFromPrior [] (ms.take i)) m)) } := by
  unfold reformat_ai_conversation
  simp only [processMessages_eq_mapIdx]

/-! ## Claim C2 -/

/-- C2 (counterexample): the claim says every field other than `content`
passes through unchanged, but `reformat_ai_conversation` rebuilds each
message from only `role` and `content`: an extra `weight` field is dropped,
and a missing `role` is replaced with `'unknown'`. -/
theorem C2_counterexample :
    reformat_ai_conversation { messages := some [
        { role := none, content := some "hi".data,
          extra := [("weight".data, "1".data)] }] }
      = { messages := some [
        { role := some unknownRole, content := some "hi".data, extra := [] }] } ∧
    ({ role := some unknownRole, content := some "hi".data, extra := [] } : Msg)
      ≠ { role := none, content := some "hi".data,
          extra := [("weight".data, "1".data)] } := by
  constructor
  · decide
  · decide

theorem processMessages_role_extra : ∀ (ms : List Msg) (docs : List Str),
    (processMessages docs ms).map (fun m => (m.role, m.extra))
      = ms.map (fun m => (some (m.role.getD unknownRole), ([] : List (Str × Str)))) := by
  intro ms
  induction ms with
  | nil => intro docs; rfl
  | cons m tl ih =>
    intro docs
    simp only [processMessages]
    split
    · simp [ih]
    · split
      · simp [ih]
      · simp [ih]

/-- C2 (amended): only `content` is rewritten and message count and order
are preserved; the `role` field passes through unchanged when present, but a
missing `role` becomes `'unknown'`, and every field other than `role` and
`content` is dropped from the output message. -/
theorem C2_theorem (ms : List Msg) :
    ((reformat_ai_conversation { messages := some ms }).messages.getD []).map
        (fun m => (m.role, m.extra))
      = ms.map (fun m => (some (m.role.getD unknownRole), ([] : List (Str × Str)))) := by
  unfold reformat_ai_conversation
  simp only [Option.getD_some]
  exact processMessages_role_extra ms []

/-! ## Claim C9 -/

theorem processMessages_canonical : ∀ (ms : List Msg) (docs : List Str),
    ∀ m ∈ processMessages docs ms,
      ∃ r cn, m = { role := some r, content := some cn, extra := [] } := by
  intro ms
  induction ms with
  | nil => intro docs m hm; simp [processMessages] at hm
  | cons hd tl ih =>
    intro docs m hm
    simp only [processMessages] at hm
    split at hm <;> [skip; split at hm] <;>
      (rcases List.mem_cons.mp hm with hh | ht
       · exact ⟨_, _, hh⟩
       · exact ih _ m ht)

theorem processMessages_id_of_no_marker : ∀ (l : List Msg) (docs : List Str),
    (∀ m ∈ l, (∃ r cn, m = { role := some r, content := some cn, extra := [] })
      ∧ msgHasMarker m = false) →
    processMessages docs l = l := by
  intro l
  induction l with
  | nil => intro docs _; rfl
  | cons m tl ih =>
    intro docs h
    obtain ⟨⟨r, cn, hshape⟩, hmark⟩ := h m (by simp)
    subst hshape
    unfold msgHasMarker at hmark
    rw [Bool.or_eq_false_iff] at hmark
    obtain ⟨hm1, hm2⟩ := hmark
    simp only [Option.getD_some] at hm1 hm2
    simp only [processMessages, Option.getD_some, hm1, hm2, Bool.false_eq_true, if_false]
    rw [ih docs (fun m hm => h m (by simp [hm]))]

/-- C9 (counterexample): the claim's "by construction" clause — that no
marker survives reformatting — is false: an assistant message with an
unclosed `##begin_quote##` marker passes through unchanged and still
contains the marker after reformatting. -/
theorem C9_counterexample :
    noResidualMarkers (reformat_ai_conversation { messages := some [
      { role := some assistantRole, content := some "##begin_quote##x".data,
        extra := [] }] }) = false := by
  decide

/-- C9 (amended): whenever the output of `reformat_ai_conversation` contains
no user message with `<DOCUMENT>` and no assistant message with
`##begin_quote##`, applying `reformat_ai_conversation` a second time returns
that output unchanged.  (The claim's further assertion that this condition
holds for *every* output is refuted by the counterexample: markers survive
when tags are nested or unclosed.) -/
theorem C9_theorem (cv : Conv)
    (h : noResidualMarkers (reformat_ai_conversation cv) = true) :
    reformat_ai_conversation (reformat_ai_conversation cv)
      = reformat_ai_conversation cv := by
  cases cv with
  | mk mo =>
    cases mo with
    | none => rfl
    | some ms =>
      unfold reformat_ai_conversation at h ⊢
      simp only [Option.getD_some] at h ⊢
      congr 1
      unfold noResidualMarkers at h
      simp only [Option.getD_some, List.all_eq_true, Bool.not_eq_true'] at h
      exact congrArg some (processMessages_id_of_no_marker _ []
        (fun m hm => ⟨processMessages_canonical ms [] m hm, h m hm⟩))

/-- C9 (witness). -/
theorem C9_witness :
    noResidualMarkers (reformat_ai_conversation { messages := some [
      { role := some userRole, content := some "<DOCUMENT>A</DOCUMENT>Q".data, extra := [] },
      { role := some assistantRole,
        content := some "##begin_quote##A##end_quote##".data, extra := [] }] }) = true ∧
    reformat_ai_conversation (reformat_ai_conversation { messages := some [
      { role := some userRole, content := some "<DOCUMENT>A</DOCUMENT>Q".data, extra := [] },
      { role := some assistantRole,
        content := some "##begin_quote##A##end_quote##".data, extra := [] }] })
      = reformat_ai_conversation { messages := some [
      { role := some userRole, content := some "<DOCUMENT>A</DOCUMENT>Q".data, extra := [] },
      { role := some assistantRole,
        content := some "##begin_quote##A##end_quote##".data, extra := [] }] } :=
  ⟨by decide, C9_theorem _ (by decide)⟩
theorem reformat_jsonl_file_char (parse : Str → Option Conv) (dump : Conv → Str) :
    ∀ (lines : List Str),
      reformat_jsonl_file parse dump lines =
        { outLines := lines.filterMap (fileLineOut parse dump),
          reformatted_count := lines.countP (lineOk parse),
          error_count := lines.countP (lineErr parse) } := by
  intro lines
  induction lines with
  | nil => rfl
  | cons line rest ih =>
    cases hb : (pyStrip line).isEmpty with
    | true =>
      simp only [reformat_jsonl_file, hb, if_true, ih, List.filterMap_cons,
        List.countP_cons, fileLineOut, lineOk, lineErr, Bool.not_true,
        Bool.false_and, if_false]
      simp
    | false =>
      cases hp : parse (pyStrip line) with
      | some cv =>
        simp only [reformat_jsonl_file, hb, Bool.false_eq_true, if_false, hp, ih]
        simp [List.filterMap_cons, List.countP_cons, fileLineOut, lineOk, lineErr, hb, hp]
      | none =>
        simp only [reformat_jsonl_file, hb, Bool.false_eq_true, if_false, hp, ih]
        simp [List.filterMap_cons, List.countP_cons, fileLineOut, lineOk, lineErr, hb, hp]

theorem reformat_jsonl_linesCore_char (parse : Str → Option Conv) (dump : Conv → Str) :
    ∀ (lines : List Str),
      reformat_jsonl_linesCore parse dump lines
        = (lines.filterMap (strLineOut parse dump), lines.countP (lineErr parse)) := by
  intro lines
  induction lines with
  | nil => rfl
  | cons line rest ih =>
    cases hb : (pyStrip line).isEmpty with
    | true =>
      simp only [reformat_jsonl_linesCore, hb, if_true, ih]
      simp [List.filterMap_cons, List.countP_cons, strLineOut, lineErr, hb]
    | false =>
      cases hp : parse (pyStrip line) with
      | some cv =>
        simp only [reformat_jsonl_linesCore, hb, Bool.false_eq_true, if_false, hp, ih]
        simp [List.filterMap_cons, List.countP_cons, strLineOut, lineErr, hb, hp]
      | none =>
        simp only [reformat_jsonl_linesCore, hb, Bool.false_eq_true, if_false, hp, ih]
        simp [List.filterMap_cons, List.countP_cons, strLineOut, lineErr, hb, hp]

/-! ## Claim C8 -/

/-- C8: the batch operations are total functions of their input — record
failures, modelled by the abstract parser returning `none` (a raised
`JSONDecodeError` or other exception in the source is caught and converted
into an error report), are confined to the failing record: each variant's
entire output decomposes line by line, every line's contribution depending
only on that line, with failing records merely counted (file variant) or
kept verbatim (string variant), never aborting the batch. -/
theorem C8_theorem :
    (∀ (parse : Str → Option Conv) (dump : Conv → Str) (lines : List Str),
      reformat_jsonl_file parse dump lines =
        { outLines := lines.filterMap (fileLineOut parse dump),
          reformatted_count := lines.countP (lineOk parse),
          error_count := lines.countP (lineErr parse) }) ∧
    (∀ (parse : Str → Option Conv) (dump : Conv → Str) (lines : List Str),
      reformat_jsonl_linesCore parse dump lines
        = (lines.filterMap (strLineOut parse dump), lines.countP (lineErr parse))) :=
  ⟨fun parse dump => reformat_jsonl_file_char parse dump,
   fun parse dump => reformat_jsonl_linesCore_char parse dump⟩

/-! ## Claim C7 -/

theorem file_count_eq (parse : Str → Option Conv) (dump : Conv → Str) :
    ∀ (lines : List Str),
      (reformat_jsonl_file parse dump lines).outLines.length
          + (reformat_jsonl_file parse dump lines).error_count
        = lines.countP (fun l => !(pyStrip l).isEmpty) := by
  intro lines
  induction lines with
  | nil => rfl
  | cons line rest ih =>
    cases hb : (pyStrip line).isEmpty with
    | true =>
      simp only [reformat_jsonl_file, hb, if_true, List.countP_cons, hb]
      simpa using ih
    | false =>
      cases hp : parse (pyStrip line) with
      | some cv =>
        simp only [reformat_jsonl_file, hb, Bool.false_eq_true, if_false, hp,
          List.countP_cons, hb, List.length_cons]
        simp only [Bool.not_false, if_true]
        omega
      | none =>
        simp only [reformat_jsonl_file, hb, Bool.false_eq_true, if_false, hp,
          List.countP_cons, hb]
        simp only [Bool.not_false, if_true]
        omega

theorem lines_count_eq (parse : Str → Option Conv) (dump : Conv → Str) :
    ∀ (lines : List Str),
      (reformat_jsonl_linesCore parse dump lines).1.length
        = lines.countP (fun l => !(pyStrip l).isEmpty) := by
  intro lines
  induction lines with
  | nil => rfl
  | cons line rest ih =>
    cases hb : (pyStrip line).isEmpty with
    | true =>
      simp only [reformat_jsonl_linesCore, hb, if_true, List.countP_cons, hb]
      simpa using ih
    | false =>
      cases hp : parse (pyStrip line) with
      | some cv =>
        simp only [reformat_jsonl_linesCore, hb, Bool.false_eq_true, if_false, hp,
          List.countP_cons, hb, List.length_cons]
        simp only [Bool.not_false, if_true]
        omega
      | none =>
        simp only [reformat_jsonl_linesCore, hb, Bool.false_eq_true, if_false, hp,
          List.countP_cons, hb, List.length_cons]
        simp only [Bool.not_false, if_true]
        omega

/-- C7 (counterexample): the claimed equation `output + errors = non-blank`
fails for the string variant, whose error policy keeps the failing record's
original line as an output record: one non-blank unparsable line gives one
output record plus one error. -/
theorem C7_counterexample :
    (reformat_jsonl_linesCore alwaysFailParse unitDump ["x".data]).1.length
        + (reformat_jsonl_linesCore alwaysFailParse unitDump ["x".data]).2 = 2 ∧
    (["x".data] : List Str).countP (fun l => !(pyStrip l).isEmpty) = 1 ∧
    (2 : Nat) ≠ 1 := by
  refine ⟨by decide, by decide, by decide⟩

/-- C7 (amended): blank (whitespace-only) lines are skipped without being
counted as output or as errors; for the file variant, output records plus
errored records equal the non-blank input lines; for the string variant,
the output records alone equal the non-blank input lines (errored records
are retained in the output), so adding the error count to them overshoots
whenever an error occurs. -/
theorem C7_theorem :
    (∀ (parse : Str → Option Conv) (dump : Conv → Str) (lines : List Str),
      (reformat_jsonl_file parse dump lines).outLines.length
          + (reformat_jsonl_file parse dump lines).error_count
        = lines.countP (fun l => !(pyStrip l).isEmpty)) ∧
    (∀ (parse : Str → Option Conv) (dump : Conv → Str) (lines : List Str),
      (reformat_jsonl_linesCore parse dump lines).1.length
        = lines.countP (fun l => !(pyStrip l).isEmpty)) :=
  ⟨fun parse dump => file_count_eq parse dump,
   fun parse dump => lines_count_eq parse dump⟩
